import Mathlib

/-!
Verification of the jsconvert core (comp.py, lang.py, transpiler.py)
against its natural-language specification.  Python functions are
shallowly embedded as executable Lean definitions; machine strings are
modelled as `List Char`, Python exceptions as `Except`.
-/

namespace JSConvert

/-! ## Python character and string primitives (ASCII model)

`str.isspace` / `str.isprintable` are modelled for the ASCII range,
which is the range exercised by the source cursor's delimiter sets. -/

/-- Model of Python's per-character whitespace test (ASCII). -/
def isSpaceChar (c : Char) : Bool :=
  c = ' ' || c = '\t' || c = '\n' || c = '\x0d' || c = '\x0b' || c = '\x0c'

/-- Model of Python's `str.isprintable` on one ASCII character:
control characters (below 0x20) and DEL are unprintable. -/
def isPrintableChar (c : Char) : Bool :=
  !(c.toNat < 0x20 || c.toNat = 0x7f)

/-- Python `s.isspace()` for a string: nonempty and all whitespace. -/
def pyIsspace (s : List Char) : Bool :=
  !s.isEmpty && s.all isSpaceChar

/-- Python `s.rstrip()`: drop trailing whitespace characters. -/
def rstrip (s : List Char) : List Char :=
  (s.reverse.dropWhile isSpaceChar).reverse

/-- Python `s.strip()`: drop leading and trailing whitespace characters. -/
def pyStrip (s : List Char) : List Char :=
  (rstrip s).dropWhile isSpaceChar

/-- Python slice `s[a:b]` (for `0 ≤ a ≤ b` as used by the code under study). -/
def pySlice (s : List Char) (a b : Nat) : List Char :=
  (s.take b).drop a

/-! ## Source cursor (comp.py, `CodeFactory`) -/

/-- The operator character set `_OPERATORS` of comp.py. -/
def OPERATORS : List Char := ['+', '-', '/', '*', '%', '~', '^', '=', '<', '>', '&', '|', '!', '?']

/-- Membership in `_OPERATORS`. -/
def isOpChar (c : Char) : Bool := OPERATORS.contains c

/-- Loop of `CodeFactory.next_char` (comp.py lines 185-198) over the
characters `spec[i:]`, carrying the absolute index `i` and the total
source length (returned when the scan falls off the end). -/
def next_char_loop (totalLen : Nat) : List Char → Nat → Option Char × Nat
  | [], _ => (none, totalLen)
  | c :: rest, i =>
    if isPrintableChar c && !isSpaceChar c then
      (some c, i)
    else
      next_char_loop totalLen rest (i + 1)

/-- Model of `CodeFactory.next_char` (comp.py lines 185-198): skip
whitespace and unprintable characters from `offset`; return the first
printable non-space character with its index, or `(none, length)` at the
end of the source (Python returns the empty string there). -/
def next_char (spec : List Char) (offset : Nat) : Option Char × Nat :=
  next_char_loop spec.length (spec.drop offset) offset

/-- Loop of `CodeFactory._next_op` (comp.py lines 200-214) over the
characters `spec[offset:]`.  `op` is the run accumulated so far; on the
first non-operator character the run is coalesced (`/*` → `#*`,
`//` → `##`) and returned; if the scan reaches the end of the source
(the `for` loop exhausts its range) the run is returned uncoalesced. -/
def next_op_loop : List Char → List Char → List Char
  | [], op => op
  | c :: rest, op =>
    if isOpChar c then
      next_op_loop rest (op ++ [c])
    else
      if op.take 2 = ['/', '*'] then ['#', '*']
      else if op.take 2 = ['/', '/'] then ['#', '#']
      else op

/-- Model of `CodeFactory._next_op` (comp.py lines 200-214). -/
def next_op (spec : List Char) (offset : Nat) : List Char :=
  next_op_loop (spec.drop offset) []

/-- The spec's description of coalescing: a run beginning with `/*`
becomes `#*`, a run beginning with `//` becomes `##`, otherwise the
run itself. -/
def coalesceOp (run : List Char) : List Char :=
  if run.take 2 = ['/', '*'] then ['#', '*']
  else if run.take 2 = ['/', '/'] then ['#', '#']
  else run

/-! ## `CodeBuffer.trim` (transpiler.py lines 426-435)

Emitted tokens are modelled as `List Char`; the buffer `buf` as a list
of tokens. -/

/-- The pop condition of `trim`'s while loop:
`self.buf[ln].isspace() or not self.buf[ln]` (whitespace-only or empty). -/
def isBlankToken (s : List Char) : Bool :=
  pyIsspace s || s.isEmpty

/-- The while loop of `trim` (transpiler.py lines 429-432), acting on the
reversed buffer: pop tokens from the end while they are blank. -/
def trimPopRev : List (List Char) → List (List Char)
  | [] => []
  | t :: rest => if isBlankToken t then trimPopRev rest else t :: rest

/-- Right-strip the last token of the buffer (transpiler.py lines 434-435).
The Python guard is `if self.buf and len != -1:`; `len` there is the
builtin function, never `-1`, so the guard is just `self.buf` nonempty. -/
def rstripLast : List (List Char) → List (List Char)
  | [] => []
  | [t] => [rstrip t]
  | t :: rest => t :: rstripLast rest

/-- Model of `CodeBuffer.trim` (transpiler.py lines 426-435). -/
def trim (buf : List (List Char)) : List (List Char) :=
  rstripLast (trimPopRev buf.reverse).reverse

/-- Bool check used to state C8: the buffer's last token (if any) is
nonempty and does not end in a whitespace character. -/
def endsClean (buf : List (List Char)) : Bool :=
  match buf.getLast? with
  | none => true
  | some t =>
    match t.getLast? with
    | none => false
    | some c => !isSpaceChar c

/-! ## `CodeEntry.get_descendants` (comp.py lines 366-370)

For this claim an entry is abstracted to its `get_children` tree.
The Python body builds a local list `da` but has no `return`
statement, so it returns `None` — modelled as `.ok none`; extending
`da` by the `None` of a recursive call (`da.extend(c.get_descendants())`)
raises `TypeError` — modelled as `.error ()`. -/

/-- An entry abstracted to its (acyclic) `get_children` tree. -/
inductive EntryTree where
  | mk : List EntryTree → EntryTree

mutual
/-- Model of `CodeEntry.get_descendants` (comp.py lines 366-370). -/
def get_descendants : EntryTree → Except Unit (Option (List EntryTree))
  | .mk kids => gdLoop [] kids

/-- The `for c in self.get_children()` loop with accumulator `da`;
falling off the end of the function body returns Python `None`. -/
def gdLoop (da : List EntryTree) : List EntryTree → Except Unit (Option (List EntryTree))
  | [] => .ok none
  | c :: rest =>
    match get_descendants c with
    | .ok (some l) => gdLoop (da ++ [c] ++ l) rest
    | .ok none => .error ()
    | .error e => .error e
end

/-! ## `CodeFactory.get_code` (comp.py lines 67-78)

`RootEntry(self)` builds a root container with an empty stack (its
scope walk starts from `inscope and par = False`, so the constructor
cannot raise).  `root._pack()` mutates the root in place and may raise;
it is abstracted as a function from the initial stack to the final
(partially built) stack together with an optional exception. -/

/-- Outcome of `RootEntry._pack`: the final state of the root's stack
and the exception it raised, if any. -/
def PackFn (σ : Type) : Type := List σ → List σ × Option Unit

/-- Model of `CodeFactory.get_code` (comp.py lines 67-78): build the
root, pack it inside `try: ... except: pass`, return the root. -/
def get_code {σ : Type} (pack : PackFn σ) : Except Unit (List σ) :=
  let root : List σ := []
  let packed := pack root
  .ok packed.1

/-! ## `Comment` entries (comp.py lines 1482-1503) -/

/-- Loop of Python `s.find(pat, i)` over `s[i:]`, carrying the absolute
index. -/
def findSubLoop (pat : List Char) : List Char → Nat → Option Nat
  | [], i => if pat.isEmpty then some i else none
  | l@(_ :: rest), i => if pat.isPrefixOf l then some i else findSubLoop pat rest (i + 1)

/-- Python `s.find(pat, i)`: the least index `≥ i` at which `pat`
occurs in `s`, or `none` (Python `-1`). -/
def findSub (s pat : List Char) (i : Nat) : Option Nat :=
  findSubLoop pat (s.drop i) i

/-- The fields of a `Comment` entry (comp.py) that `noEdit` reads:
the factory source, the span `offs..pos` and the delimiter `name`. -/
structure CommentE where
  spec : List Char
  offs : Nat
  pos : Nat
  name : List Char
deriving DecidableEq

/-- Model of `Comment.__init__` (comp.py lines 1485-1494): `op` is the
coalesced operator token (`#*` or `##`); `name` is `op` with `#`
replaced by `/`.  A `/*` comment ends two characters after the next
`*/` (or at the end of the source); a `//` comment ends before the
next newline (or at the end of the source). -/
def Comment_init (spec : List Char) (offs : Nat) (op : List Char) : CommentE :=
  let name := op.map (fun c => if c = '#' then '/' else c)
  let i := offs + name.length
  if name = ['/', '*'] then
    match findSub spec (['*', '/']) i with
    | some j => ⟨spec, offs, j + 2, name⟩
    | none => ⟨spec, offs, spec.length, name⟩
  else
    match findSub spec (['\n']) i with
    | some j => ⟨spec, offs, j, name⟩
    | none => ⟨spec, offs, spec.length, name⟩

/-- Model of `Comment.noEdit` (comp.py lines 1497-1503): the source
text from `offs+2` to `pos`, stripped, compared with `no-edit`.  For a
terminated block comment this slice includes the closing `*/`. -/
def CommentE.noEdit (c : CommentE) : Bool :=
  decide (pyStrip (pySlice c.spec (c.offs + 2) c.pos) = ("no-edit").data)

/-- The comment body as the claim's words read it: the text between
the comment delimiters, excluding a terminating `*/` when the block
comment is terminated.  Stated from the spec's words, to be compared
with the code's `CommentE.noEdit`. -/
def commentBodySpec (c : CommentE) : List Char :=
  if c.name = ['/', '*'] ∧ c.offs + 2 + 2 ≤ c.pos
      ∧ pySlice c.spec (c.pos - 2) c.pos = ['*', '/'] then
    pySlice c.spec (c.offs + 2) (c.pos - 2)
  else
    pySlice c.spec (c.offs + 2) c.pos

/-! ## Parsed documents and `CodeBuffer.__init__`
(transpiler.py lines 257-299)

A parsed document is modelled as the root container's stack of
subtrees; each node carries exactly the per-entry data the constructor
inspects (comment payload, `name`, `isinstance(·, KW_import)`). -/

/-- The per-entry data `CodeBuffer.__init__` inspects. -/
inductive DocEntry where
  | comment (c : CommentE)
  | entry (nm : String) (isImp : Bool)
deriving DecidableEq

/-- `isinstance(e, Comment)`. -/
def DocEntry.isComment : DocEntry → Bool
  | .comment _ => true
  | .entry _ _ => false

/-- The entry's `name` attribute (a comment's name is `/*` or `//`). -/
def DocEntry.name : DocEntry → String
  | .comment c => String.mk c.name
  | .entry n _ => n

/-- `isinstance(e, KW_import)`. -/
def DocEntry.isImport : DocEntry → Bool
  | .comment _ => false
  | .entry _ imp => imp

/-- A document subtree: an entry and, when it is a container, the
container's stack of children. -/
inductive DTree where
  | node : DocEntry → List DTree → DTree

mutual
/-- Pre-order flattening of one subtree, as `Container.entries`
(comp.py lines 433-443) produces it. -/
def flattenTree : DTree → List DocEntry
  | .node e kids => e :: flattenForest kids

/-- Pre-order flattening of a stack of subtrees. -/
def flattenForest : List DTree → List DocEntry
  | [] => []
  | t :: ts => flattenTree t ++ flattenForest ts
end

/-- Exceptions out of `CodeBuffer.__init__`: the distinct
`NoEditException` versus anything else (e.g. raised while registering
an import). -/
inductive BufErr where
  | noEdit
  | other
deriving DecidableEq

/-- The entry loop of `CodeBuffer.__init__` (transpiler.py lines
286-297): append each non-comment entry, track a pending `import`
entry, and hand it to `ImportMap._register_import` at the closing `;`.
Registration is abstracted as `reg` (it never raises
`NoEditException`; any exception from it is `.other`). -/
def initLoop (reg : DocEntry → Except Unit Unit) :
    List DocEntry → Option DocEntry → List DocEntry → Except BufErr (List DocEntry)
  | [], _, acc => .ok acc
  | e :: rest, importing, acc =>
    let acc' := if e.isComment then acc else acc ++ [e]
    match importing with
    | some imp =>
      if e.name = ";" then
        match reg imp with
        | .ok _ => initLoop reg rest none acc'
        | .error _ => .error .other
      else if e.isImport then initLoop reg rest (some e) acc'
      else initLoop reg rest (some imp) acc'
    | none =>
      if e.isImport then initLoop reg rest (some e) acc'
      else initLoop reg rest none acc'

/-- The guard of the no-edit check (transpiler.py lines 281-283):
`source.stack and isinstance(source.stack[0], Comment) and
source.stack[0].noEdit()`. -/
def noEditHead : List DTree → Bool
  | DTree.node (.comment c) _ :: _ => c.noEdit
  | _ => false

/-- Model of `CodeBuffer.__init__` on a parsed document (transpiler.py
lines 277-299): raise `NoEditException` when the first stack entry is
a no-edit comment, otherwise build the comment-free entry list.
(`source._pack()` on an already parsed document is a no-op, its
`has_more` being `False`.) -/
def CodeBuffer_init (reg : DocEntry → Except Unit Unit) (stack : List DTree) :
    Except BufErr (List DocEntry) :=
  if noEditHead stack then .error .noEdit
  else initLoop reg (flattenForest stack) none []

/-! ## `Container.get_children` (comp.py lines 535-561) -/

/-- The fields of a stack entry that `Container.get_children` reads:
an identity (Python object identity), the parent's identity, the
nesting inset and the `Comment`/`Leaf` flags. -/
structure SEnt where
  id : Nat
  par : Option Nat
  inset : Int
  isComment : Bool
  isLeaf : Bool
deriving DecidableEq

/-- The scan loop of `get_children` (comp.py lines 555-559): walk the
stack while insets stay strictly greater than the entry's, collecting
direct children that are not comments. -/
def collectChildren (entryId : Nat) (entryInset : Int) : List SEnt → List SEnt
  | [] => []
  | e :: rest =>
    if entryInset < e.inset then
      (if e.par = some entryId ∧ e.isComment = false then [e] else [])
        ++ collectChildren entryId entryInset rest
    else []

/-- Model of `Container.get_children` (comp.py lines 535-561).
`isSelf` models `entry is self`; otherwise the scan starts after the
entry's index in the stack (`index_of(entry) + 1`), and a missing
entry yields the empty list. -/
def get_children (selfStack : List SEnt) (entry : SEnt) (isSelf : Bool) : List SEnt :=
  if entry.isLeaf then []
  else if isSelf then
    collectChildren entry.id entry.inset selfStack
  else
    match selfStack.findIdx? (fun e => e.id = entry.id) with
    | none => []
    | some n => collectChildren entry.id entry.inset (selfStack.drop (n + 1))

/-! ## Keyword registry (lang.py lines 62-133)

A constructor is identified by the Python class (or `_def_mod` lambda)
that `keys`/`altkeys` store; `functional` models
`hasattr(cls, "functional")` (own or inherited attribute). -/

/-- Identity of a registered constructor: a lang.py class, or the
`Modifier` lambda `_def_mod(nm)` made for an otherwise unmapped
reserved word. -/
inductive CtorId where
  | cls (clsName : String)
  | defMod (word : String)
deriving DecidableEq

/-- A keyword constructor as the registry dispatches on it. -/
structure Ctor where
  cid : CtorId
  functional : Bool
deriving DecidableEq

/-- A Python dict used as `keys`/`altkeys`. -/
def KeyMap : Type := String → Option Ctor

/-- The empty dict. -/
def KeyMap.empty : KeyMap := fun _ => none

/-- Python `d.update({k: v})` on such a dict. -/
def KeyMap.update (m : KeyMap) (k : String) (v : Ctor) : KeyMap :=
  fun s => if s = k then some v else m s

/-- Python `s.startswith(pre)` (via the character lists, so that the
registry evaluates by kernel reduction). -/
def pyStartsWith (s pre : String) : Bool := pre.data.isPrefixOf s.data

/-- Python `s[n:]` on a string, via the character list. -/
def pyDropChars (s : String) (n : Nat) : String := String.mk (s.data.drop n)

/-- One step of the registration loop of `Keywords.__init__`
(lang.py lines 92-104) for a prefixed global, `nm` already stripped of
its `KW_`/`XW_` prefix: a second constructor for an existing name goes
to `altkeys` — the functional one of the two ends up in `keys`. -/
def seedStep (maps : KeyMap × KeyMap) (nm : String) (c : Ctor) : KeyMap × KeyMap :=
  match maps.1 nm with
  | some old =>
    if c.functional then (maps.1.update nm c, maps.2.update nm old)
    else (maps.1, maps.2.update nm c)
  | none => (maps.1.update nm c, maps.2)

/-- The loop over `globals().items()` (lang.py lines 92-104): only
names starting `KW_`/`XW_` register, under the name with the prefix
stripped. -/
def seedGlobals (maps : KeyMap × KeyMap) : List (String × Ctor) → KeyMap × KeyMap
  | [] => maps
  | (gname, c) :: rest =>
    if pyStartsWith gname "KW_" || pyStartsWith gname "XW_" then
      seedGlobals (seedStep maps (pyDropChars gname 3) c) rest
    else
      seedGlobals maps rest

/-- The defaulting loop (lang.py lines 106-108): any reserved word not
yet mapped gets the `Modifier` lambda `_def_mod(nm)` (which has no
`functional` attribute). -/
def seedDefaults (keys : KeyMap) : List String → KeyMap
  | [] => keys
  | nm :: rest =>
    match keys nm with
    | some _ => seedDefaults keys rest
    | none => seedDefaults (keys.update nm ⟨.defMod nm, false⟩) rest

/-- The `KW_`/`XW_` classes of lang.py in definition order, each with
its `functional` attribute (own or inherited: `Condition` and
`Function` carry `functional = True` in comp.py; `KW_for` and
`KW_constructor` set it themselves). -/
def langGlobals : List (String × Ctor) := [
  ("KW_export", ⟨.cls "KW_export", false⟩),
  ("KW_import", ⟨.cls "KW_import", false⟩),
  ("KW_from", ⟨.cls "KW_from", false⟩),
  ("KW_default", ⟨.cls "KW_default", false⟩),
  ("KW_if", ⟨.cls "KW_if", true⟩),
  ("KW_else", ⟨.cls "KW_else", false⟩),
  ("KW_for", ⟨.cls "KW_for", true⟩),
  ("KW_do", ⟨.cls "KW_do", false⟩),
  ("KW_while", ⟨.cls "KW_while", true⟩),
  ("KW_switch", ⟨.cls "KW_switch", true⟩),
  ("KW_case", ⟨.cls "KW_case", false⟩),
  ("KW_extends", ⟨.cls "KW_extends", false⟩),
  ("KW_break", ⟨.cls "KW_break", false⟩),
  ("KW_continue", ⟨.cls "KW_continue", false⟩),
  ("KW_function", ⟨.cls "KW_function", false⟩),
  ("KW_var", ⟨.cls "KW_var", false⟩),
  ("KW_let", ⟨.cls "KW_let", false⟩),
  ("KW_const", ⟨.cls "KW_const", false⟩),
  ("KW_true", ⟨.cls "KW_true", false⟩),
  ("KW_false", ⟨.cls "KW_false", false⟩),
  ("KW_constructor", ⟨.cls "KW_constructor", true⟩),
  ("KW_new", ⟨.cls "KW_new", false⟩),
  ("KW_this", ⟨.cls "KW_this", false⟩),
  ("KW_super", ⟨.cls "KW_super", false⟩),
  ("KW_try", ⟨.cls "KW_try", false⟩),
  ("KW_catch", ⟨.cls "KW_catch", true⟩),
  ("XW_catch", ⟨.cls "XW_catch", false⟩),
  ("KW_finally", ⟨.cls "KW_finally", false⟩),
  ("KW_throw", ⟨.cls "KW_throw", false⟩),
  ("KW_null", ⟨.cls "KW_null", false⟩),
  ("KW_return", ⟨.cls "KW_return", false⟩),
  ("KW_class", ⟨.cls "KW_class", false⟩),
  ("KW_typeof", ⟨.cls "KW_typeof", false⟩),
  ("KW_instanceof", ⟨.cls "KW_instanceof", false⟩),
  ("KW_undefined", ⟨.cls "KW_undefined", false⟩)]

/-- `JS_KEYWORDS` (lang.py lines 62-70). -/
def JS_KEYWORDS : List String := [
  "abstract", "arguments", "as", "await", "boolean", "break", "byte", "case", "catch",
  "char", "class", "const", "continue", "constructor", "debugger", "default", "delete", "do",
  "double", "else", "enum", "eval", "export", "extends", "false", "final",
  "finally", "float", "for", "from", "function", "goto", "if", "implements", "import",
  "in", "instanceof", "int", "interface", "let", "long", "native", "new", "null", "of",
  "package", "private", "protected", "public", "return", "short", "static",
  "super", "switch", "synchronized", "this", "throw", "throws", "transient",
  "true", "try", "typeof", "var", "void", "volatile", "while", "with", "yield", "undefined"]

/-- The `keys`/`altkeys` pair after the two loops of
`Keywords.__init__` (lang.py lines 86-111). -/
def keywordsMaps : KeyMap × KeyMap :=
  let maps := seedGlobals (KeyMap.empty, KeyMap.empty) langGlobals
  (seedDefaults maps.1 JS_KEYWORDS, maps.2)

/-- Model of `Keywords.get_code_instance` (lang.py lines 116-133),
returning the constructor whose instance is created (or `none` for
Python `None`): a functional primary constructor is replaced by the
alternate when the next printable character after the keyword is not
`(`. -/
def get_code_instance (keys altkeys : KeyMap) (keyword : String)
    (spec : List Char) (offs : Nat) : Option Ctor :=
  match keys keyword with
  | none => none
  | some c =>
    if c.functional ∧ (next_char spec (offs + keyword.length)).1 ≠ some '(' then
      match altkeys keyword with
      | none => none
      | some a => some a
    else
      some c

/-! ## Container scope tags (comp.py lines 416-431)

`Container.__init__` walks the ancestors (when `inscope`) to the
nearest `Container` `p`, increments `p.ccnt` and sets
`self.scope = p.scope + "_" + str(p.ccnt)`; with no walk (or no
container ancestor) the scope stays `""`.  A container is modelled by
its identity, the parent its walk found (`none` when `inscope` was
false or it is the root), its scope string and its child counter; a
parse is modelled by the sequence of container creations it performs. -/

/-- Python `str(n)` for a natural number: decimal digits.  The fuel
argument keeps the recursion structural (any fuel above `n` agrees). -/
def natToCharsAux : Nat → Nat → List Char
  | 0, _ => []
  | fuel + 1, n =>
    if n < 10 then [Nat.digitChar n]
    else natToCharsAux fuel (n / 10) ++ [Nat.digitChar (n % 10)]

/-- Python `str(n)`. -/
def natToChars (n : Nat) : List Char := natToCharsAux (n + 1) n

/-- Decimal read-back used to prove `natToChars` injective. -/
def charsToNat (s : List Char) : Nat :=
  s.foldl (fun acc c => acc * 10 + (c.toNat - 48)) 0

/-- A container as the scope logic sees it. -/
structure Cont where
  id : Nat
  scopePar : Option Nat
  scope : List Char
  ccnt : Nat
deriving DecidableEq

/-- First container with the given identity (Python references are by
identity; identities are kept unique). -/
def findCont : List Cont → Nat → Option Cont
  | [], _ => none
  | c :: rest, i => if c.id = i then some c else findCont rest i

/-- `c.ccnt += 1` when `c` is the container with identity `p`. -/
def bump1 (p : Nat) (c : Cont) : Cont :=
  if c.id = p then { c with ccnt := c.ccnt + 1 } else c

/-- `p.ccnt += 1` on the container with identity `p`. -/
def bumpCcnt (st : List Cont) (p : Nat) : List Cont :=
  st.map (bump1 p)

/-- Model of the scope assignment of `Container.__init__` (comp.py
lines 416-431): create container `cid`; when its walk found container
`p`, bump `p.ccnt` and derive the tag from `p.scope`; otherwise the
tag is empty.  (Under `wfRun` the parent always exists; the fallback
arm mirrors the walk having found nothing.) -/
def mkContainer (st : List Cont) (cid : Nat) (sp : Option Nat) : List Cont :=
  match sp with
  | none => st ++ [⟨cid, none, [], 0⟩]
  | some p =>
    match findCont st p with
    | none => st ++ [⟨cid, none, [], 0⟩]
    | some pc =>
      bumpCcnt st p ++ [⟨cid, some p, pc.scope ++ '_' :: natToChars (pc.ccnt + 1), 0⟩]

/-- Run a sequence of container creations from a state. -/
def runScopes (st : List Cont) : List (Nat × Option Nat) → List Cont
  | [] => st
  | (cid, sp) :: rest => runScopes (mkContainer st cid sp) rest

/-- Well-formedness of a creation sequence: every new identity is
fresh and every scope parent was created earlier (as holds during a
parse, where the walk returns an existing ancestor container). -/
def wfRun (st : List Cont) : List (Nat × Option Nat) → Bool
  | [] => true
  | (cid, sp) :: rest =>
    (findCont st cid).isNone
    && (match sp with
        | none => true
        | some p => (findCont st p).isSome)
    && wfRun (mkContainer st cid sp) rest

/-- The invariant carried through a run: identities determine
containers; every in-scope container's tag is its parent's tag plus an
underscore and a numeral not exceeding the parent's counter; and
containers sharing a scope parent have distinct tags. -/
def ScopeInv (st : List Cont) : Prop :=
  (∀ c1 ∈ st, ∀ c2 ∈ st, c1.id = c2.id → c1 = c2)
  ∧ (∀ c ∈ st, ∀ p, c.scopePar = some p →
      ∃ pc, findCont st p = some pc
        ∧ ∃ k, k ≤ pc.ccnt ∧ c.scope = pc.scope ++ '_' :: natToChars k)
  ∧ (∀ c1 ∈ st, ∀ c2 ∈ st, ∀ p, c1.scopePar = some p → c2.scopePar = some p →
      c1.id ≠ c2.id → c1.scope ≠ c2.scope)

/-- A terminated block comment reading `/*no-edit*/`, as the parser
builds it: `parse_entry` sees `/`, `_next_op` coalesces `/*` to `#*`,
and `Comment.__init__` runs on the coalesced token at offset 0. -/
def noEditBlockSrc : List Char := ("/*no-edit*/").data

/-- The `Comment` entry the parser builds on `noEditBlockSrc`. -/
def noEditBlockComment : CommentE := Comment_init noEditBlockSrc 0 (['#', '*'])

/-- A two-entry document used to instantiate the C6 theorem: a comment
followed by an ordinary entry. -/
def stackC6 : List DTree :=
  [DTree.node (.comment noEditBlockComment) [], DTree.node (.entry "x" false) []]

/-! ## `CodeBuffer.current` and the rule dispatch engine
(transpiler.py lines 103-175, 301-307, 377-398)

The engine reads three things off an entry: its Python type name (for
the trie lookup), its identity (for the `is` comparisons of
`AnyBucket.process`), and its `get_children` — `none` models an entry
whose `get_children` call raises (`EMPTY`, whose `par` is `None`). -/

/-- The per-entry data the dispatch engine reads. -/
structure REnt where
  id : Nat
  kind : String
  children : Option (List Nat)
deriving DecidableEq

/-- The `EMPTY` sentinel (comp.py line 1537): a bare `CodeEntry`; a
`get_children` call on it raises, its `par` being `None`. -/
def EMPTY : REnt := ⟨0, "CodeEntry", none⟩

/-- The fields of a `CodeBuffer` that `current` and `process` read:
the flat entry list, the `size` field, the cursor `offset`, the slice
start `par_offs` and the parent buffer `pb`. -/
inductive Buf where
  | mk (entries : List REnt) (size : Int) (offset : Int) (parOffs : Int) (pb : Option Buf)

/-- The `entries` field. -/
def Buf.entries : Buf → List REnt
  | .mk e _ _ _ _ => e

/-- The `size` field. -/
def Buf.size : Buf → Int
  | .mk _ s _ _ _ => s

/-- The `offset` field. -/
def Buf.offset : Buf → Int
  | .mk _ _ o _ _ => o

/-- The `par_offs` field. -/
def Buf.parOffs : Buf → Int
  | .mk _ _ _ po _ => po

/-- The `pb` field. -/
def Buf.pb : Buf → Option Buf
  | .mk _ _ _ _ p => p

/-- `buffer.offset = o` (the only field `process` mutates). -/
def Buf.withOffset : Buf → Int → Buf
  | .mk e s _ po p, o => .mk e s o po p

/-- Python list indexing `l[i]`: negative indexes wrap once; out of
range raises (`none`). -/
def pyIdx {α : Type} (l : List α) (i : Int) : Option α :=
  let j := if i < 0 then i + l.length else i
  if h : 0 ≤ j ∧ j < (l.length : Int) then some (l.get ⟨j.toNat, by omega⟩) else none

/-- Model of `CodeBuffer.current` (transpiler.py lines 377-388):
in-range offsets index `entries`; out-of-range consults the parent
slice when `par_offs` is nonzero, else yields `EMPTY`.  `.error`
models the raises: `entries[offset]` past the list's end, or
`self.pb.current` on a `None` parent. -/
def Buf.current : Buf → Int → Except Unit REnt
  | .mk entries size offset parOffs pb, k =>
    let o := k + offset
    if 0 ≤ o ∧ o < size then
      match entries.get? o.toNat with
      | some e => .ok e
      | none => .error ()
    else if parOffs ≠ 0 then
      match pb with
      | some p => p.current ((parOffs - p.offset) + o)
      | none => .error ()
    else .ok EMPTY

/-- Model of `CodeBuffer.next` (transpiler.py lines 390-393). -/
def Buf.next (b : Buf) : Except Unit REnt := b.current 1

/-- Model of `CodeBuffer.prev` (transpiler.py lines 395-398). -/
def Buf.prev (b : Buf) : Except Unit REnt := b.current (-1)

/-- A transpiling rule, reduced to its `apply(buffer, offset)`; an
exception from `apply` is `.error`. -/
structure Rule where
  apply : Buf → Int → Except Unit Int

/-- The rule trie: `isAny` marks the buckets `_add` creates for the
path step `ANY` (transpiler.py line 119); `map` is `_map`, `rules` is
`_list`. -/
inductive Bucket where
  | node (isAny : Bool) (map : List (String × Bucket)) (rules : List Rule)

/-- `self._map.get(name)`. -/
def lookupB : List (String × Bucket) → String → Option Bucket
  | [], _ => none
  | (k, bb) :: rest, s => if k = s then some bb else lookupB rest s

/-- The `try`/`for` over `self._list` (transpiler.py lines 139-147):
the first rule whose `apply` returns nonzero wins; an exception from
`apply` is wrapped into a `RuleProcessingException` and raised. -/
def tryRules (b : Buf) (offs : Int) : List Rule → Except Unit (Option Int)
  | [] => .ok none
  | r :: rest =>
    match r.apply b (offs - 1) with
    | .error _ => .error ()
    | .ok i => if i ≠ 0 then .ok (some i) else tryRules b offs rest

/-- The tail of `RuleBucket.process` (transpiler.py lines 139-155):
try the bucket's own rules; a winning rule advances the cursor by its
count; otherwise the top-level bucket (`self is buffer.rules`)
advances by one entry and reports handled, a nested bucket reports
unhandled. -/
def procTail (rs : List Rule) (isRoot : Bool) (b : Buf) (offs : Int) :
    Except Unit (Int × Bool) :=
  match tryRules b offs rs with
  | .error u => .error u
  | .ok (some i) => .ok (b.offset + i, true)
  | .ok none => if isRoot then .ok (b.offset + 1, true) else .ok (b.offset, false)

/-- `if b and b.process(...): return True` sequencing: keep a handled
result (or an exception), otherwise continue. -/
def orTry (r1 : Except Unit (Int × Bool)) (r2 : Unit → Except Unit (Int × Bool)) :
    Except Unit (Int × Bool) :=
  match r1 with
  | .error u => .error u
  | .ok (o, true) => .ok (o, true)
  | .ok (_, false) => r2 ()

/-- `i < l.length` whenever Python indexing succeeds. -/
theorem pyIdx_some_lt {α : Type} {l : List α} {i : Int} {e : α}
    (h : pyIdx l i = some e) : i < (l.length : Int) := by
  rw [pyIdx] at h
  by_cases hi : i < 0
  · omega
  · simp only [hi, if_false] at h
    by_cases hr : 0 ≤ i ∧ i < (l.length : Int)
    · exact hr.2
    · rw [dif_neg hr] at h
      exact absurd h (by simp)

/-- The `while buffer.entries[buffer.offset + offs] is not c: offs += 1`
loop of `AnyBucket.process` (transpiler.py lines 168-169): scan for
the child with identity `target`; running off the list raises
`IndexError`. -/
def skipTo (b : Buf) (target : Nat) (offs : Int) : Except Unit Int :=
  match h : pyIdx b.entries (b.offset + offs) with
  | none => .error ()
  | some e => if e.id = target then .ok offs else skipTo b target (offs + 1)
termination_by (b.entries.length + 1 - (b.offset + offs)).toNat
decreasing_by
  have := pyIdx_some_lt h
  omega

/-- `sizeOf` of a bucket found in a map is below the map's. -/
theorem lookupB_sizeOf : ∀ (m : List (String × Bucket)) (s : String) (bb : Bucket),
    lookupB m s = some bb → sizeOf bb < sizeOf m := by
  intro m
  induction m with
  | nil => intro s bb h; simp [lookupB] at h
  | cons kv rest ih =>
    intro s bb h
    obtain ⟨k, bsub⟩ := kv
    rw [lookupB] at h
    by_cases hk : k = s
    · rw [if_pos hk] at h
      cases h
      simp only [List.cons.sizeOf_spec, Prod.mk.sizeOf_spec]
      omega
    · rw [if_neg hk] at h
      have := ih s bb h
      simp only [List.cons.sizeOf_spec, Prod.mk.sizeOf_spec]
      omega

mutual
/-- Model of `RuleBucket.process` (transpiler.py lines 124-155): at
`pos = offset + offs`, when in range, look the entry's type name up in
`_map` and let that bucket process at `offs+1`, then the `ANY` bucket;
a handled child wins; otherwise the bucket's own rules run, and the
top-level bucket (`isRoot`, i.e. `self is buffer.rules`) falls back to
advancing by one.  Returns the new `buffer.offset` and the
handled flag; `.error` is a raise. -/
def procBase (bk : Bucket) (isRoot : Bool) (b : Buf) (offs : Int) :
    Except Unit (Int × Bool) :=
  match bk with
  | .node _ m rs =>
    if b.offset + offs < b.size then
      match pyIdx b.entries (b.offset + offs) with
      | none => .error ()
      | some e =>
        orTry
          (match hl1 : lookupB m e.kind with
           | none => .ok (b.offset, false)
           | some child => dispatch child b (offs + 1))
          (fun _ =>
            orTry
              (match hl2 : lookupB m "ANY" with
               | none => .ok (b.offset, false)
               | some child => dispatch child b (offs + 1))
              (fun _ => procTail rs isRoot b offs))
    else procTail rs isRoot b offs
termination_by (sizeOf bk, 0, 0)
decreasing_by
  all_goals
    refine Prod.Lex.left _ _ ?_
    simp only [Bucket.node.sizeOf_spec]
    first
      | (have hs := lookupB_sizeOf m e.kind child hl1
         omega)
      | (have hs := lookupB_sizeOf m ("ANY") child hl2
         omega)

/-- Dynamic dispatch `b.process(buffer, offs)`: an `AnyBucket` runs
`AnyBucket.process` (transpiler.py lines 161-175) — back up two steps,
fetch the entry there, iterate its children — a plain bucket runs
`RuleBucket.process`. -/
def dispatch (bk : Bucket) (b : Buf) (offs : Int) : Except Unit (Int × Bool) :=
  match bk with
  | .node false m rs => procBase (.node false m rs) false b offs
  | .node true m rs =>
    match b.current (offs - 2) with
    | .error u => .error u
    | .ok c =>
      match c.children with
      | none => .error ()
      | some kids => anyLoop (.node true m rs) b (offs - 2) kids
termination_by (sizeOf bk, 2, 0)

/-- The `for c in c.get_children()` loop of `AnyBucket.process`
(transpiler.py lines 167-175): locate each child in the entry stack,
run `super().process` (the `RuleBucket` body on this same bucket) at
its offset; first handled child wins, else advance past it. -/
def anyLoop (bk : Bucket) (b : Buf) (offs : Int) (kids : List Nat) :
    Except Unit (Int × Bool) :=
  match kids with
  | [] => .ok (b.offset, false)
  | k :: rest =>
    match skipTo b k offs with
    | .error u => .error u
    | .ok offs2 =>
      match procBase bk false b offs2 with
      | .error u => .error u
      | .ok (o, true) => .ok (o, true)
      | .ok (_, false) => anyLoop bk b (offs2 + 1) rest
termination_by (sizeOf bk, 1, kids.length)
end

/-- Model of the loop of `CodeBuffer.transpile` (transpiler.py lines
301-307), with explicit fuel: `none` means the fuel ran out before the
cursor passed `size` (the termination theorem shows `size - offset`
fuel always suffices). -/
def transpileFuel (bk : Bucket) : Nat → Buf → Option (Except Unit Buf)
  | 0, b => if b.offset < b.size then none else some (.ok b)
  | fuel + 1, b =>
    if b.offset < b.size then
      match procBase bk true b 0 with
      | .error u => some (.error u)
      | .ok (o, _) => transpileFuel bk fuel (b.withOffset o)
    else some (.ok b)

/-- The C1 precondition on one rule: `apply` returns a non-negative
count whenever it returns. -/
def RulesNN (rs : List Rule) : Prop :=
  ∀ r ∈ rs, ∀ (b : Buf) (o i : Int), r.apply b o = .ok i → 0 ≤ i

/-- The C1 precondition over a whole bucket trie. -/
inductive BucketNN : Bucket → Prop where
  | node : ∀ (isAny : Bool) (m : List (String × Bucket)) (rs : List Rule),
      RulesNN rs → (∀ kv ∈ m, BucketNN kv.2) → BucketNN (.node isAny m rs)

/-! # Theorems -/

/-! ## C7: `_next_op` -/

/-- Helper: `next_op_loop` returns the accumulated run extended by the
maximal operator prefix of the remaining characters, coalesced exactly
when a non-operator character terminates the scan. -/
theorem next_op_loop_characterization (l : List Char) : ∀ op : List Char,
    next_op_loop l op =
      if (l.takeWhile isOpChar).length < l.length
      then coalesceOp (op ++ l.takeWhile isOpChar)
      else op ++ l.takeWhile isOpChar := by
  induction l with
  | nil => intro op; simp [next_op_loop]
  | cons c rest ih =>
    intro op
    by_cases hc : isOpChar c
    · simp only [next_op_loop, hc, if_true, List.takeWhile_cons, List.length_cons]
      rw [ih (op ++ [c])]
      simp [List.append_assoc, Nat.succ_lt_succ_iff]
    · simp only [next_op_loop, hc, if_false, List.takeWhile_cons, List.length_cons]
      simp only [Bool.false_eq_true, if_false, List.takeWhile_nil, List.length_nil,
        List.append_nil, coalesceOp]
      have : 0 < rest.length + 1 := Nat.succ_pos _
      simp [this]

/-- C7 (amended): `_next_op` reads the maximal run of operator
characters starting at `offset`; when that run is terminated by a
non-operator character before the end of the source the run is
coalesced (`/*…` → `#*`, `//…` → `##`, otherwise the run itself), but
a run that extends to the end of the source is returned uncoalesced. -/
theorem c7_next_op_characterization (spec : List Char) (offset : Nat) :
    next_op spec offset =
      (if offset + ((spec.drop offset).takeWhile isOpChar).length < spec.length
       then coalesceOp ((spec.drop offset).takeWhile isOpChar)
       else (spec.drop offset).takeWhile isOpChar) := by
  rw [next_op, next_op_loop_characterization]
  have hlen : (spec.drop offset).length = spec.length - offset := by
    simp [List.length_drop]
  have htw : ((spec.drop offset).takeWhile isOpChar).length ≤ (spec.drop offset).length :=
    (List.takeWhile_prefix _).length_le
  by_cases h : ((spec.drop offset).takeWhile isOpChar).length < (spec.drop offset).length
  · rw [if_pos h, if_pos (by omega), List.nil_append]
  · rw [if_neg h, if_neg (by omega), List.nil_append]

/-! ## C8: `CodeBuffer.trim` -/

/-- The pop loop is `dropWhile` of the blank test on the reversed buffer. -/
theorem trimPopRev_eq_dropWhile (l : List (List Char)) :
    trimPopRev l = l.dropWhile isBlankToken := by
  induction l with
  | nil => rfl
  | cons t rest ih =>
    by_cases h : isBlankToken t <;> simp [trimPopRev, List.dropWhile_cons, h, ih]

/-- The first element surviving `dropWhile` fails the predicate. -/
theorem dropWhile_head_false {α : Type} {p : α → Bool} :
    ∀ (l : List α) (c : α) (rest : List α), l.dropWhile p = c :: rest → p c = false := by
  intro l
  induction l with
  | nil => intro c rest h; simp at h
  | cons a as ih =>
    intro c rest h
    by_cases hp : p a
    · rw [List.dropWhile_cons_of_pos hp] at h
      exact ih c rest h
    · rw [List.dropWhile_cons_of_neg hp] at h
      cases h
      exact Bool.eq_false_iff.mpr hp

/-- `rstripLast` rewrites exactly the last token. -/
theorem rstripLast_getLast? : ∀ l : List (List Char),
    (rstripLast l).getLast? = l.getLast?.map rstrip
  | [] => rfl
  | [_] => rfl
  | t :: u :: us => by
    rw [show rstripLast (t :: u :: us) = t :: rstripLast (u :: us) from rfl]
    have h := rstripLast_getLast? (u :: us)
    rcases hcons : rstripLast (u :: us) with _ | ⟨v, vs⟩
    · cases us <;> simp [rstripLast] at hcons
    · rw [hcons] at h
      rw [List.getLast?_cons_cons, h, List.getLast?_cons_cons]

/-- A right-stripped token never ends in a whitespace character. -/
theorem rstrip_getLast_not_space (s : List Char) (c : Char)
    (h : (rstrip s).getLast? = some c) : isSpaceChar c = false := by
  rw [rstrip, List.getLast?_reverse] at h
  cases hd : s.reverse.dropWhile isSpaceChar with
  | nil => rw [hd] at h; simp at h
  | cons a as =>
    rw [hd] at h
    simp only [List.head?_cons, Option.some.injEq] at h
    subst h
    exact dropWhile_head_false _ _ _ hd

/-- Right-stripping a non-blank token yields a nonempty token. -/
theorem rstrip_ne_nil_of_not_blank (t : List Char) (h : isBlankToken t = false) :
    rstrip t ≠ [] := by
  intro hnil
  have hemp : t.isEmpty = false := by
    cases he : t.isEmpty
    · rfl
    · rw [isBlankToken, he, Bool.or_true] at h; exact absurd h (by simp)
  have hall : t.all isSpaceChar = false := by
    cases ha : t.all isSpaceChar
    · rfl
    · have hpy : pyIsspace t = true := by rw [pyIsspace, hemp, ha]; rfl
      rw [isBlankToken, hpy, Bool.true_or] at h; exact absurd h (by simp)
  rw [rstrip] at hnil
  have h2 : t.reverse.dropWhile isSpaceChar = [] := List.reverse_eq_nil_iff.mp hnil
  have hrev := List.dropWhile_eq_nil_iff.mp h2
  have htrue : t.all isSpaceChar = true :=
    List.all_eq_true.mpr (fun x hx => hrev x (List.mem_reverse.mpr hx))
  rw [htrue] at hall
  exact absurd hall (by simp)

/-- C8: after `trim()` the token list ends with no trailing whitespace —
every trailing whitespace-only or empty token is removed, and the new
last token (if any remains) is right-stripped, so it is nonempty and
does not end in a whitespace character. -/
theorem c8_trim_no_trailing_whitespace (buf : List (List Char)) :
    endsClean (trim buf) = true
    ∧ trim buf = rstripLast (buf.reverse.dropWhile isBlankToken).reverse := by
  constructor
  · rw [trim, trimPopRev_eq_dropWhile]
    cases hd : buf.reverse.dropWhile isBlankToken with
    | nil => simp [endsClean, rstripLast]
    | cons t rest =>
      have htb : isBlankToken t = false := dropWhile_head_false _ _ _ hd
      have hlast : ((t :: rest).reverse).getLast? = some t := by
        rw [List.getLast?_reverse]; rfl
      rw [endsClean, rstripLast_getLast?, hlast]
      simp only [Option.map_some']
      cases hgl : (rstrip t).getLast? with
      | none =>
        exact absurd (List.getLast?_eq_none_iff.mp hgl) (rstrip_ne_nil_of_not_blank t htb)
      | some c =>
        simp [rstrip_getLast_not_space t c hgl]
  · rw [trim, trimPopRev_eq_dropWhile]

/-! ## C9: `CodeEntry.get_descendants` -/

/-- The loop of `get_descendants` either falls through (returning Python
`None`) or raises; it never returns a list. -/
theorem gdLoop_result (l : List EntryTree) : ∀ da : List EntryTree,
    gdLoop da l = .ok none ∨ gdLoop da l = .error () := by
  induction l with
  | nil => intro da; left; simp [gdLoop]
  | cons c rest ih =>
    intro da
    rw [gdLoop]
    cases hc : get_descendants c with
    | ok o =>
      cases o with
      | some val => exact ih _
      | none => right; rfl
    | error e => right; rfl

/-- `get_descendants` on any entry either returns `None` or raises. -/
theorem get_descendants_shape (e : EntryTree) :
    get_descendants e = .ok none ∨ get_descendants e = .error () := by
  cases e with
  | mk kids => rw [get_descendants]; exact gdLoop_result kids []

/-- `get_descendants` returns `None` exactly on childless entries and
raises `TypeError` exactly on entries with children. -/
theorem get_descendants_result (kids : List EntryTree) :
    (get_descendants (.mk kids) = .ok none ↔ kids = [])
    ∧ (get_descendants (.mk kids) = .error () ↔ kids ≠ []) := by
  cases kids with
  | nil => constructor <;> simp [get_descendants, gdLoop]
  | cons c rest =>
    have herr : get_descendants (.mk (c :: rest)) = .error () := by
      rw [get_descendants, gdLoop]
      rcases get_descendants_shape c with h | h <;> rw [h]
    constructor
    · rw [herr]; simp
    · rw [herr]; simp

/-- C9 (amended): `get_descendants` never accumulates anything into its
return value — it returns `None` for entries without children and
raises `TypeError` (extending the accumulator by `None`) for entries
with children; it never returns a list. -/
theorem c9_get_descendants_amended (kids : List EntryTree) :
    (get_descendants (.mk kids) = .ok none ↔ kids = [])
    ∧ (get_descendants (.mk kids) = .error () ↔ kids ≠ [])
    ∧ (∀ l, get_descendants (.mk kids) ≠ .ok (some l)) := by
  refine ⟨(get_descendants_result kids).1, (get_descendants_result kids).2, ?_⟩
  intro l h
  rcases kids with _ | ⟨c, rest⟩
  · rw [(get_descendants_result []).1.mpr rfl] at h; simp at h
  · rw [(get_descendants_result (c :: rest)).2.mpr (by simp)] at h; simp at h

/-- C9: counterexample to the claim as stated — on an entry with one
child `get_descendants` raises `TypeError` (from `da.extend(None)`)
instead of returning `None`/an empty list. -/
theorem c9_get_descendants_counterexample :
    get_descendants (.mk [.mk []]) = .error ()
    ∧ ∀ l, get_descendants (.mk [.mk []]) ≠ .ok l := by
  have h : get_descendants (.mk [.mk []]) = .error () :=
    (get_descendants_result [.mk []]).2.mpr (by simp)
  exact ⟨h, fun l hl => by rw [h] at hl; simp at hl⟩

/-! ## C4: the no-edit signal -/

/-- The entry loop of `CodeBuffer.__init__` never raises
`NoEditException` — its only exceptions come out of import
registration. -/
theorem initLoop_ne_noEdit (reg : DocEntry → Except Unit Unit) :
    ∀ (l : List DocEntry) (importing : Option DocEntry) (acc : List DocEntry),
      initLoop reg l importing acc ≠ .error .noEdit := by
  intro l
  induction l with
  | nil => intro importing acc h; simp [initLoop] at h
  | cons e rest ih =>
    intro importing acc h
    rcases importing with _ | imp
    · simp only [initLoop] at h
      by_cases hi : e.isImport = true <;> simp [hi] at h <;> exact ih _ _ h
    · simp only [initLoop] at h
      by_cases hs : e.name = ";"
      · rw [if_pos hs] at h
        cases hr : reg imp with
        | ok u => rw [hr] at h; exact ih _ _ h
        | error u => rw [hr] at h; exact absurd (Except.error.inj h) (by simp)
      · rw [if_neg hs] at h
        by_cases hi : e.isImport = true <;> simp [hi] at h <;> exact ih _ _ h

/-- The no-edit guard holds exactly when the first stack entry is a
comment whose `noEdit` test succeeds. -/
theorem noEditHead_iff : ∀ stack : List DTree,
    noEditHead stack = true ↔
      ∃ c kids rest, stack = DTree.node (.comment c) kids :: rest ∧ c.noEdit = true
  | [] => by
    constructor
    · intro h; exact absurd h (by simp [noEditHead])
    · rintro ⟨c, kids, rest, heq, _⟩; exact absurd heq (by simp)
  | DTree.node (.comment c) kids :: rest => by
    constructor
    · intro h; exact ⟨c, kids, rest, rfl, h⟩
    · rintro ⟨c', kids', rest', heq, hne⟩
      injection heq with h1 h2
      injection h1 with h3 h4
      injection h3 with h5
      rw [show noEditHead (DTree.node (.comment c) kids :: rest) = c.noEdit from rfl, h5, hne]
  | DTree.node (.entry n imp) kids :: rest => by
    constructor
    · intro h; exact absurd h (by simp [noEditHead])
    · rintro ⟨c', kids', rest', heq, _⟩
      injection heq with h1 h2
      injection h1 with h3 h4
      exact absurd h3 (by simp)

/-- C4 (amended): constructing a `CodeBuffer` over a parsed document
raises `NoEditException` iff the document's first entry is a `Comment`
whose source text from two characters past its start to its end
position — for a terminated block comment this includes the closing
`*/` — trims to `no-edit`.  A line comment `// no-edit` raises; a
terminated block comment `/* no-edit */` does not. -/
theorem c4_noEdit_iff (reg : DocEntry → Except Unit Unit) (stack : List DTree) :
    CodeBuffer_init reg stack = .error .noEdit ↔
      (∃ c kids rest, stack = DTree.node (.comment c) kids :: rest ∧ c.noEdit = true) := by
  rw [← noEditHead_iff]
  constructor
  · intro h
    by_cases hg : noEditHead stack = true
    · exact hg
    · rw [CodeBuffer_init, if_neg (by simp [hg])] at h
      exact absurd h (initLoop_ne_noEdit reg _ _ _)
  · intro hg
    rw [CodeBuffer_init, if_pos hg]

/-- C4: counterexample to the claim as stated.  The parsed document
whose sole (first) entry is the terminated block comment `/*no-edit*/`
has a comment body that trims to exactly `no-edit`, yet constructing
the `CodeBuffer` raises nothing: `noEdit` compares the slice
`spec[offs+2:pos]`, which still carries the closing `*/`. -/
theorem c4_noEdit_counterexample :
    pyStrip (commentBodySpec noEditBlockComment) = ("no-edit").data
    ∧ CodeBuffer_init (fun _ => .ok ()) [DTree.node (.comment noEditBlockComment) []] = .ok []
    ∧ noEditBlockComment.noEdit = false := by
  refine ⟨by decide, rfl, by decide⟩

/-! ## C6: comments never reach the emission engine -/

/-- The entry loop only ever appends non-comment entries. -/
theorem initLoop_no_comment (reg : DocEntry → Except Unit Unit) :
    ∀ (l : List DocEntry) (importing : Option DocEntry) (acc entries : List DocEntry),
      (∀ e ∈ acc, e.isComment = false) →
      initLoop reg l importing acc = .ok entries →
      ∀ e ∈ entries, e.isComment = false := by
  intro l
  induction l with
  | nil =>
    intro importing acc entries hacc h
    rw [initLoop] at h
    cases h
    exact hacc
  | cons e rest ih =>
    intro importing acc entries hacc h
    have hacc' : ∀ x ∈ (if e.isComment then acc else acc ++ [e]), x.isComment = false := by
      by_cases hc : e.isComment = true
      · simpa [hc] using hacc
      · intro x hx
        rw [if_neg (by simp [hc])] at hx
        rcases List.mem_append.mp hx with hx | hx
        · exact hacc x hx
        · rw [List.mem_singleton.mp hx]
          simpa using hc
    rcases importing with _ | imp
    · simp only [initLoop] at h
      by_cases hi : e.isImport = true <;> simp only [hi, if_true, if_false] at h <;>
        exact ih _ _ _ hacc' h
    · simp only [initLoop] at h
      by_cases hs : e.name = ";"
      · rw [if_pos hs] at h
        cases hr : reg imp with
        | ok u => rw [hr] at h; exact ih _ _ _ hacc' h
        | error u => rw [hr] at h; exact absurd h (by simp)
      · rw [if_neg hs] at h
        by_cases hi : e.isImport = true <;> simp only [hi, if_true, if_false] at h <;>
          exact ih _ _ _ hacc' h

/-- The scan loop of `get_children` only collects non-comments. -/
theorem collectChildren_no_comment (i : Nat) (ins : Int) :
    ∀ (l : List SEnt) (c : SEnt), c ∈ collectChildren i ins l → c.isComment = false := by
  intro l
  induction l with
  | nil => intro c h; simp [collectChildren] at h
  | cons e rest ih =>
    intro c h
    rw [collectChildren] at h
    by_cases hins : ins < e.inset
    · rw [if_pos hins] at h
      rcases List.mem_append.mp h with h | h
      · by_cases hcond : e.par = some i ∧ e.isComment = false
        · rw [if_pos hcond] at h
          rw [List.mem_singleton.mp h]
          exact hcond.2
        · rw [if_neg hcond] at h
          simp at h
      · exact ih c h
    · rw [if_neg hins] at h
      simp at h

/-- C6: the entry sequence a `CodeBuffer` is built over contains no
`Comment` entry, and `Container.get_children` never returns a
`Comment`; comments stay in the DOM but are never seen by the emission
engine. -/
theorem c6_no_comment_reaches_emission (reg : DocEntry → Except Unit Unit)
    (stack : List DTree) (entries : List DocEntry)
    (h : CodeBuffer_init reg stack = .ok entries) :
    (∀ e ∈ entries, e.isComment = false)
    ∧ ∀ (selfStack : List SEnt) (entry : SEnt) (isSelf : Bool) (c : SEnt),
        c ∈ get_children selfStack entry isSelf → c.isComment = false := by
  constructor
  · have hloop : initLoop reg (flattenForest stack) none [] = .ok entries := by
      rw [CodeBuffer_init] at h
      by_cases hg : noEditHead stack = true
      · rw [if_pos hg] at h; exact absurd h (by simp)
      · rw [if_neg hg] at h; exact h
    exact initLoop_no_comment reg _ _ _ _ (by simp) hloop
  · intro selfStack entry isSelf c hc
    rw [get_children] at hc
    by_cases hl : entry.isLeaf = true
    · simp [hl] at hc
    · rw [if_neg (by simp [hl])] at hc
      by_cases hself : isSelf = true
      · rw [if_pos (by simp [hself])] at hc
        exact collectChildren_no_comment _ _ _ _ hc
      · rw [if_neg (by simp [hself])] at hc
        cases hfind : selfStack.findIdx? (fun e => e.id = entry.id) with
        | none => rw [hfind] at hc; simp at hc
        | some n => rw [hfind] at hc; exact collectChildren_no_comment _ _ _ _ hc

/-- C6 witness: a concrete document holding a comment and one plain
entry — the buffer is built, the surviving entry is not a comment. -/
theorem c6_no_comment_reaches_emission_witness :
    DocEntry.isComment (.entry "x" false) = false :=
  (c6_no_comment_reaches_emission (fun _ => .ok ()) stackC6 [.entry "x" false]
    (by rfl)).1 _ (by decide)

/-! ## C5: scope tags -/

/-- Reading a numeral back gives the number (for sufficient fuel). -/
theorem natToCharsAux_roundtrip : ∀ fuel n, n < fuel →
    charsToNat (natToCharsAux fuel n) = n := by
  intro fuel
  induction fuel with
  | zero => intro n h; omega
  | succ fuel ih =>
    intro n h
    rw [natToCharsAux]
    have hd : ∀ m, m < 10 → (Nat.digitChar m).toNat - 48 = m := by decide
    by_cases h10 : n < 10
    · rw [if_pos h10]
      simp [charsToNat, hd n h10]
    · rw [if_neg h10]
      have hlt : n / 10 < n := Nat.div_lt_self (by omega) (by omega)
      have hrec : charsToNat (natToCharsAux fuel (n / 10)) = n / 10 := ih _ (by omega)
      rw [charsToNat, List.foldl_append]
      simp only [List.foldl_cons, List.foldl_nil]
      rw [show List.foldl (fun acc c => acc * 10 + (c.toNat - 48)) 0
            (natToCharsAux fuel (n / 10)) = charsToNat (natToCharsAux fuel (n / 10)) from rfl]
      rw [hrec, hd (n % 10) (Nat.mod_lt _ (by omega))]
      omega

/-- `str(n)` is injective. -/
theorem natToChars_inj {m n : Nat} (h : natToChars m = natToChars n) : m = n := by
  have hm : charsToNat (natToChars m) = m := natToCharsAux_roundtrip (m + 1) m (by omega)
  have hn : charsToNat (natToChars n) = n := natToCharsAux_roundtrip (n + 1) n (by omega)
  have h2 := congrArg charsToNat h
  rw [hm, hn] at h2
  exact h2

/-- Equal tags with the same parent-prefix force equal numerals. -/
theorem scope_suffix_inj (s : List Char) (k1 k2 : Nat)
    (h : s ++ '_' :: natToChars k1 = s ++ '_' :: natToChars k2) : k1 = k2 := by
  have h1 := List.append_cancel_left h
  have h2 : natToChars k1 = natToChars k2 := by
    injection h1
  exact natToChars_inj h2

/-- `bump1` changes only the counter. -/
theorem bump1_id (p : Nat) (c : Cont) : (bump1 p c).id = c.id := by
  by_cases h : c.id = p <;> simp [bump1, h]

/-- `bump1` keeps the scope. -/
theorem bump1_scope (p : Nat) (c : Cont) : (bump1 p c).scope = c.scope := by
  by_cases h : c.id = p <;> simp [bump1, h]

/-- `bump1` keeps the scope parent. -/
theorem bump1_scopePar (p : Nat) (c : Cont) : (bump1 p c).scopePar = c.scopePar := by
  by_cases h : c.id = p <;> simp [bump1, h]

/-- `bump1` never lowers the counter. -/
theorem bump1_ccnt_ge (p : Nat) (c : Cont) : c.ccnt ≤ (bump1 p c).ccnt := by
  by_cases h : c.id = p <;> simp [bump1, h]

/-- A found container is a member and carries the searched identity. -/
theorem findCont_mem : ∀ (st : List Cont) (q : Nat) (c : Cont),
    findCont st q = some c → c ∈ st ∧ c.id = q := by
  intro st
  induction st with
  | nil => intro q c h; simp [findCont] at h
  | cons a rest ih =>
    intro q c h
    rw [findCont] at h
    by_cases ha : a.id = q
    · rw [if_pos ha] at h
      cases h
      exact ⟨List.mem_cons_self _ _, ha⟩
    · rw [if_neg ha] at h
      obtain ⟨hm, hi⟩ := ih q c h
      exact ⟨List.mem_cons_of_mem _ hm, hi⟩

/-- When nothing is found, no member carries the identity. -/
theorem findCont_none : ∀ (st : List Cont) (q : Nat),
    findCont st q = none → ∀ c ∈ st, c.id ≠ q := by
  intro st
  induction st with
  | nil => intro q _ c hc; simp at hc
  | cons a rest ih =>
    intro q h c hc
    rw [findCont] at h
    by_cases ha : a.id = q
    · rw [if_pos ha] at h; exact absurd h (by simp)
    · rw [if_neg ha] at h
      rcases List.mem_cons.mp hc with rfl | hc
      · exact ha
      · exact ih q h c hc

/-- A successful find survives appending. -/
theorem findCont_append_some : ∀ (st l2 : List Cont) (q : Nat) (c : Cont),
    findCont st q = some c → findCont (st ++ l2) q = some c := by
  intro st
  induction st with
  | nil => intro l2 q c h; simp [findCont] at h
  | cons a rest ih =>
    intro l2 q c h
    rw [findCont] at h
    rw [List.cons_append, findCont]
    by_cases ha : a.id = q
    · rw [if_pos ha] at h ⊢; exact h
    · rw [if_neg ha] at h ⊢; exact ih l2 q c h

/-- Finding in a bumped state is the bump of the find. -/
theorem findCont_bump : ∀ (st : List Cont) (p q : Nat),
    findCont (bumpCcnt st p) q = (findCont st q).map (bump1 p) := by
  intro st
  induction st with
  | nil => intro p q; rfl
  | cons a rest ih =>
    intro p q
    rw [show bumpCcnt (a :: rest) p = bump1 p a :: bumpCcnt rest p from rfl]
    rw [findCont, findCont, bump1_id]
    by_cases ha : a.id = q
    · rw [if_pos ha, if_pos ha]; rfl
    · rw [if_neg ha, if_neg ha]; exact ih p q

/-- Members of a bumped state come from members of the state. -/
theorem mem_bumpCcnt {st : List Cont} {p : Nat} {c' : Cont} (h : c' ∈ bumpCcnt st p) :
    ∃ c ∈ st, c' = bump1 p c := by
  rw [bumpCcnt] at h
  obtain ⟨c, hc, he⟩ := List.mem_map.mp h
  exact ⟨c, hc, he.symm⟩

/-- One container creation preserves the scope invariant. -/
theorem scopeInv_step (st : List Cont) (cid : Nat) (sp : Option Nat)
    (hinv : ScopeInv st) (hfresh : findCont st cid = none)
    (hpar : ∀ p, sp = some p → (findCont st p).isSome = true) :
    ScopeInv (mkContainer st cid sp) := by
  obtain ⟨inv1, inv2, inv3⟩ := hinv
  have hfreshid : ∀ c ∈ st, c.id ≠ cid := findCont_none st cid hfresh
  rcases sp with _ | p
  · -- no scope parent: append a container with the empty tag
    rw [mkContainer]
    refine ⟨?_, ?_, ?_⟩
    · intro c1 h1 c2 h2 heq
      rcases List.mem_append.mp h1 with h1 | h1 <;>
        rcases List.mem_append.mp h2 with h2 | h2
      · exact inv1 c1 h1 c2 h2 heq
      · rw [List.mem_singleton.mp h2] at heq ⊢
        exact absurd heq (hfreshid c1 h1)
      · rw [List.mem_singleton.mp h1] at heq ⊢
        exact absurd heq.symm (hfreshid c2 h2)
      · rw [List.mem_singleton.mp h1, List.mem_singleton.mp h2]
    · intro c hc q hq
      rcases List.mem_append.mp hc with hc | hc
      · obtain ⟨pc, hpc, k, hk, hs⟩ := inv2 c hc q hq
        exact ⟨pc, findCont_append_some _ _ _ _ hpc, k, hk, hs⟩
      · rw [List.mem_singleton.mp hc] at hq
        exact absurd hq (by simp)
    · intro c1 h1 c2 h2 q hq1 hq2 hne
      rcases List.mem_append.mp h1 with h1 | h1
      · rcases List.mem_append.mp h2 with h2 | h2
        · exact inv3 c1 h1 c2 h2 q hq1 hq2 hne
        · rw [List.mem_singleton.mp h2] at hq2
          exact absurd hq2 (by simp)
      · rw [List.mem_singleton.mp h1] at hq1
        exact absurd hq1 (by simp)
  · -- scope parent p: bump its counter, derive the child tag
    have hps := hpar p rfl
    cases hpc : findCont st p with
    | none => rw [hpc] at hps; exact absurd hps (by simp)
    | some pc =>
      obtain ⟨hpcmem, hpcid⟩ := findCont_mem st p pc hpc
      rw [mkContainer, hpc]
      have hbumpfind : findCont (bumpCcnt st p) p = some (bump1 p pc) := by
        rw [findCont_bump, hpc]; rfl
      have hbumppc : bump1 p pc = { pc with ccnt := pc.ccnt + 1 } := by
        rw [bump1, if_pos hpcid]
      refine ⟨?_, ?_, ?_⟩
      · intro c1 h1 c2 h2 heq
        rcases List.mem_append.mp h1 with h1 | h1 <;>
          rcases List.mem_append.mp h2 with h2 | h2
        · obtain ⟨d1, hd1, rfl⟩ := mem_bumpCcnt h1
          obtain ⟨d2, hd2, rfl⟩ := mem_bumpCcnt h2
          rw [bump1_id, bump1_id] at heq
          rw [inv1 d1 hd1 d2 hd2 heq]
        · obtain ⟨d1, hd1, rfl⟩ := mem_bumpCcnt h1
          rw [List.mem_singleton.mp h2] at heq ⊢
          rw [bump1_id] at heq
          exact absurd heq (hfreshid d1 hd1)
        · obtain ⟨d2, hd2, rfl⟩ := mem_bumpCcnt h2
          rw [List.mem_singleton.mp h1] at heq ⊢
          rw [bump1_id] at heq
          exact absurd heq.symm (hfreshid d2 hd2)
        · rw [List.mem_singleton.mp h1, List.mem_singleton.mp h2]
      · intro c hc q hq
        rcases List.mem_append.mp hc with hc | hc
        · obtain ⟨d, hd, rfl⟩ := mem_bumpCcnt hc
          rw [bump1_scopePar] at hq
          obtain ⟨pcq, hpcq, k, hk, hs⟩ := inv2 d hd q hq
          refine ⟨bump1 p pcq, ?_, k, ?_, ?_⟩
          · exact findCont_append_some _ _ _ _
              (by rw [findCont_bump, hpcq]; rfl)
          · exact le_trans hk (bump1_ccnt_ge p pcq)
          · rw [bump1_scope, bump1_scope]; exact hs
        · rw [List.mem_singleton.mp hc] at hq ⊢
          have hqp : q = p := by
            have := hq
            simp at this
            omega
          subst hqp
          refine ⟨bump1 q pc, findCont_append_some _ _ _ _ hbumpfind, pc.ccnt + 1, ?_, ?_⟩
          · rw [hbumppc]
          · rw [bump1_scope]
      · intro c1 h1 c2 h2 q hq1 hq2 hne heq
        rcases List.mem_append.mp h1 with h1 | h1 <;>
          rcases List.mem_append.mp h2 with h2 | h2
        · obtain ⟨d1, hd1, rfl⟩ := mem_bumpCcnt h1
          obtain ⟨d2, hd2, rfl⟩ := mem_bumpCcnt h2
          rw [bump1_scopePar] at hq1 hq2
          rw [bump1_id, bump1_id] at hne
          rw [bump1_scope, bump1_scope] at heq
          exact inv3 d1 hd1 d2 hd2 q hq1 hq2 hne heq
        · obtain ⟨d1, hd1, rfl⟩ := mem_bumpCcnt h1
          rw [List.mem_singleton.mp h2] at hq2 heq
          rw [bump1_scopePar] at hq1
          rw [bump1_scope] at heq
          have hqp : q = p := by simpa using hq2.symm
          subst hqp
          obtain ⟨pcq, hpcq, k, hk, hs⟩ := inv2 d1 hd1 q hq1
          rw [hpc] at hpcq
          cases hpcq
          rw [hs] at heq
          have := scope_suffix_inj _ _ _ heq
          omega
        · obtain ⟨d2, hd2, rfl⟩ := mem_bumpCcnt h2
          rw [List.mem_singleton.mp h1] at hq1 heq
          rw [bump1_scopePar] at hq2
          rw [bump1_scope] at heq
          have hqp : q = p := by simpa using hq1.symm
          subst hqp
          obtain ⟨pcq, hpcq, k, hk, hs⟩ := inv2 d2 hd2 q hq2
          rw [hpc] at hpcq
          cases hpcq
          rw [hs] at heq
          have := scope_suffix_inj _ _ _ heq.symm
          omega
        · rw [List.mem_singleton.mp h1, List.mem_singleton.mp h2] at hne
          exact hne rfl

/-- The invariant holds along every well-formed run. -/
theorem scopeInv_run : ∀ (instrs : List (Nat × Option Nat)) (st : List Cont),
    ScopeInv st → wfRun st instrs = true → ScopeInv (runScopes st instrs) := by
  intro instrs
  induction instrs with
  | nil => intro st h _; exact h
  | cons x rest ih =>
    intro st h hwf
    obtain ⟨cid, sp⟩ := x
    simp only [wfRun, Bool.and_eq_true] at hwf
    obtain ⟨⟨hfresh, hpar⟩, hrest⟩ := hwf
    rw [runScopes]
    refine ih _ (scopeInv_step st cid sp h ?_ ?_) hrest
    · exact Option.isNone_iff_eq_none.mp hfresh
    · intro p hp
      rw [hp] at hpar
      exact hpar

/-- C5 (amended): along any well-formed creation sequence, two
distinct containers whose scope walks found the *same* parent
container always carry distinct scope tags (the parent's counter is
bumped for each, and its own tag is immutable).  Uniqueness across the
whole document — the claim as stated — fails: see the counterexample. -/
theorem c5_scope_unique_same_parent (instrs : List (Nat × Option Nat))
    (hwf : wfRun [] instrs = true) :
    ∀ c1 ∈ runScopes [] instrs, ∀ c2 ∈ runScopes [] instrs,
      ∀ p, c1.scopePar = some p → c2.scopePar = some p →
        c1.id ≠ c2.id → c1.scope ≠ c2.scope := by
  have hinv : ScopeInv (runScopes [] instrs) :=
    scopeInv_run instrs [] (by refine ⟨?_, ?_, ?_⟩ <;> intro c hc <;> simp at hc) hwf
  intro c1 h1 c2 h2 p hp1 hp2 hne
  exact hinv.2.2 c1 h1 c2 h2 p hp1 hp2 hne

/-- C5 witness: root, then two in-scope blocks under it — tags `_1`
and `_2`, distinct by the theorem. -/
theorem c5_scope_unique_witness : (['_', '1'] : List Char) ≠ ['_', '2'] :=
  c5_scope_unique_same_parent [(0, none), (1, some 0), (2, some 0)] (by decide)
    ⟨1, some 0, ['_', '1'], 0⟩ (by decide) ⟨2, some 0, ['_', '2'], 0⟩ (by decide)
    0 rfl rfl (by decide)

/-- C5: counterexample to the claim as stated.  The root container and
a second out-of-scope container (e.g. the `Constructor` of
`function f(){}`, or a `Lambda` — both built with `inscope = False`)
are distinct containers carrying the *same* scope tag, the empty
string. -/
theorem c5_scope_unique_counterexample :
    wfRun [] [(0, none), (1, none)] = true
    ∧ (runScopes [] [(0, none), (1, none)]).map Cont.scope = [[], []]
    ∧ (runScopes [] [(0, none), (1, none)]).map Cont.id = [0, 1] := by
  refine ⟨by decide, by decide, by decide⟩

/-! ## C3: functional arbitration in the keyword registry -/

/-- Registering a name twice — once with a functional constructor,
once with a non-functional one, in either order — leaves the
functional one in `keys` and the other in `altkeys`. -/
theorem seedStep_two_ctors (maps : KeyMap × KeyMap) (nm : String) (f a : Ctor)
    (hffun : f.functional = true) (hafun : a.functional = false)
    (hnone : maps.1 nm = none) :
    ((seedStep (seedStep maps nm f) nm a).1 nm = some f
      ∧ (seedStep (seedStep maps nm f) nm a).2 nm = some a)
    ∧ ((seedStep (seedStep maps nm a) nm f).1 nm = some f
      ∧ (seedStep (seedStep maps nm a) nm f).2 nm = some a) := by
  constructor
  · have h1 : (seedStep maps nm f).1 nm = some f := by
      rw [seedStep, hnone]
      simp [KeyMap.update]
    constructor
    · rw [seedStep, h1, hafun]
      simp [h1]
    · rw [seedStep, h1, hafun]
      simp [KeyMap.update]
  · have h1 : (seedStep maps nm a).1 nm = some a := by
      rw [seedStep, hnone]
      simp [KeyMap.update]
    constructor
    · rw [seedStep, h1, hffun]
      simp [KeyMap.update]
    · rw [seedStep, h1, hffun]
      simp [KeyMap.update]

/-- C3: when a keyword is registered with two constructors — the
functional one in `keys`, the alternate in `altkeys` —
`get_code_instance` creates an instance of the functional constructor
iff the next printable character after the keyword is `(`, and
otherwise an instance of the alternate constructor. -/
theorem c3_functional_arbitration (keys altkeys : KeyMap) (kw : String)
    (f a : Ctor) (hf : keys kw = some f) (hffun : f.functional = true)
    (ha : altkeys kw = some a) (hafun : a.functional = false)
    (spec : List Char) (offs : Nat) :
    (get_code_instance keys altkeys kw spec offs = some f ↔
        (next_char spec (offs + kw.length)).1 = some '(')
    ∧ ((next_char spec (offs + kw.length)).1 ≠ some '(' →
        get_code_instance keys altkeys kw spec offs = some a) := by
  have hfa : f ≠ a := by
    intro h
    rw [h, hafun] at hffun
    exact absurd hffun (by simp)
  simp only [get_code_instance, hf]
  by_cases hnc : (next_char spec (offs + kw.length)).1 = some '('
  · rw [if_neg (fun hcond => hcond.2 hnc)]
    exact ⟨⟨fun _ => hnc, fun _ => rfl⟩, fun h => absurd hnc h⟩
  · rw [if_pos ⟨hffun, hnc⟩, ha]
    constructor
    · constructor
      · intro h
        exact absurd (Option.some.inj h).symm hfa
      · intro h
        exact absurd h hnc
    · intro _
      rfl

/-- C3 witness: in the registry seeded from lang.py, `catch` resolves
to the functional `KW_catch` before `(` and to the alternate
`XW_catch` otherwise. -/
theorem c3_functional_arbitration_witness :
    get_code_instance keywordsMaps.1 keywordsMaps.2 "catch"
        (("catch (e)").data) 0 = some ⟨.cls "KW_catch", true⟩
    ∧ get_code_instance keywordsMaps.1 keywordsMaps.2 "catch"
        (("catch x").data) 0 = some ⟨.cls "XW_catch", false⟩ :=
  ⟨(c3_functional_arbitration keywordsMaps.1 keywordsMaps.2 "catch"
      ⟨.cls "KW_catch", true⟩ ⟨.cls "XW_catch", false⟩ (by decide) rfl (by decide) rfl
      (("catch (e)").data) 0).1.mpr (by decide),
   (c3_functional_arbitration keywordsMaps.1 keywordsMaps.2 "catch"
      ⟨.cls "KW_catch", true⟩ ⟨.cls "XW_catch", false⟩ (by decide) rfl (by decide) rfl
      (("catch x").data) 0).2 (by decide)⟩

/-! ## C2: `CodeFactory.get_code` -/

/-- C2: `get_code` always returns the root entry — whatever `_pack`
does (including raising), the `try/except` swallows the exception and
the partially built tree is returned; no error propagates. -/
theorem c2_get_code_never_raises {σ : Type} (pack : PackFn σ) :
    get_code pack = .ok (pack []).1 ∧ ∀ e : Unit, get_code pack ≠ .error e :=
  ⟨rfl, fun _ h => by simp [get_code] at h⟩

/-! ## C10: totality of `current` on root buffers -/

/-- C10: when `par_offs` is 0 (a root buffer or a slice starting at
the parent's first entry, with `size` the entry-list length as the
constructors maintain), `current(k)` is total: it returns the entry at
`offset + k` in range, the `EMPTY` sentinel out of range, and never
raises; `next()` and `prev()` are `current(±1)`, hence also total. -/
theorem c10_current_total (entries : List REnt) (size offset : Int) (pb : Option Buf)
    (k : Int) (hsz : size = entries.length) :
    (∃ e, (Buf.mk entries size offset 0 pb).current k = .ok e
      ∧ ((0 ≤ k + offset ∧ k + offset < size) → entries.get? (k + offset).toNat = some e)
      ∧ (¬(0 ≤ k + offset ∧ k + offset < size) → e = EMPTY))
    ∧ (Buf.mk entries size offset 0 pb).next = (Buf.mk entries size offset 0 pb).current 1
    ∧ (Buf.mk entries size offset 0 pb).prev = (Buf.mk entries size offset 0 pb).current (-1) := by
  refine ⟨?_, rfl, rfl⟩
  cases pb with
  | none =>
    simp only [Buf.current]
    by_cases hin : 0 ≤ k + offset ∧ k + offset < size
    · have hlt : (k + offset).toNat < entries.length := by omega
      have hget : entries.get? (k + offset).toNat =
          some (entries.get ⟨(k + offset).toNat, hlt⟩) := List.get?_eq_get hlt
      rw [if_pos hin, hget]
      exact ⟨entries.get ⟨(k + offset).toNat, hlt⟩, rfl, fun _ => rfl,
        fun hc => absurd hin hc⟩
    · rw [if_neg hin, if_neg (by simp)]
      exact ⟨EMPTY, rfl, fun hc => absurd hc hin, fun _ => rfl⟩
  | some p =>
    simp only [Buf.current]
    by_cases hin : 0 ≤ k + offset ∧ k + offset < size
    · have hlt : (k + offset).toNat < entries.length := by omega
      have hget : entries.get? (k + offset).toNat =
          some (entries.get ⟨(k + offset).toNat, hlt⟩) := List.get?_eq_get hlt
      rw [if_pos hin, hget]
      exact ⟨entries.get ⟨(k + offset).toNat, hlt⟩, rfl, fun _ => rfl,
        fun hc => absurd hin hc⟩
    · rw [if_neg hin, if_neg (by simp)]
      exact ⟨EMPTY, rfl, fun hc => absurd hc hin, fun _ => rfl⟩

/-- C10 witness: on a one-entry root buffer, `current 0` yields the
entry and `current 5` yields `EMPTY`; neither raises. -/
theorem c10_current_total_witness :
    (Buf.mk [⟨1, "Code", some []⟩] 1 0 0 none).current 0 = .ok ⟨1, "Code", some []⟩
    ∧ (Buf.mk [⟨1, "Code", some []⟩] 1 0 0 none).current 5 = .ok EMPTY := by
  obtain ⟨e1, hok1, hin1, _⟩ := (c10_current_total [⟨1, "Code", some []⟩] 1 0 none 0 rfl).1
  obtain ⟨e2, hok2, _, hout2⟩ := (c10_current_total [⟨1, "Code", some []⟩] 1 0 none 5 rfl).1
  have he1 : e1 = ⟨1, "Code", some []⟩ := by
    have h := hin1 ⟨by omega, by omega⟩
    exact (Option.some.inj h).symm
  have he2 : e2 = EMPTY := hout2 (by omega)
  rw [he1] at hok1
  rw [he2] at hok2
  exact ⟨hok1, hok2⟩

/-! ## C1: the engine advances and `transpile` terminates -/

/-- A bucket found in a map is one of its values. -/
theorem lookupB_mem : ∀ (m : List (String × Bucket)) (s : String) (bb : Bucket),
    lookupB m s = some bb → ∃ k, (k, bb) ∈ m := by
  intro m
  induction m with
  | nil => intro s bb h; simp [lookupB] at h
  | cons kv rest ih =>
    intro s bb h
    obtain ⟨k, bsub⟩ := kv
    rw [lookupB] at h
    by_cases hk : k = s
    · rw [if_pos hk] at h
      cases h
      exact ⟨k, List.mem_cons_self _ _⟩
    · rw [if_neg hk] at h
      obtain ⟨k2, hm⟩ := ih s bb h
      exact ⟨k2, List.mem_cons_of_mem _ hm⟩

/-- Under the non-negativity precondition, a winning rule consumed at
least one entry (`if i:` filtered zero out). -/
theorem tryRules_pos : ∀ (rs : List Rule), RulesNN rs →
    ∀ (b : Buf) (offs i : Int), tryRules b offs rs = .ok (some i) → 1 ≤ i := by
  intro rs
  induction rs with
  | nil => intro _ b offs i h; simp [tryRules] at h
  | cons r rest ih =>
    intro hnn b offs i h
    rw [tryRules] at h
    split at h
    · exact absurd h (by simp)
    · next j ha =>
      split at h
      · next hj =>
        have hge := hnn r (List.mem_cons_self _ _) b (offs - 1) j ha
        simp only [Except.ok.injEq, Option.some.injEq] at h
        omega
      · exact ih (fun r2 hr2 => hnn r2 (List.mem_cons_of_mem _ hr2)) b offs i h

/-- The tail of `process`: a handled result advanced the cursor by at
least one, an unhandled result left it alone, and the top-level bucket
always reports handled. -/
theorem procTail_ok (rs : List Rule) (hnn : RulesNN rs) (isRoot : Bool) (b : Buf)
    (offs o : Int) (t : Bool) (h : procTail rs isRoot b offs = .ok (o, t)) :
    (t = true → b.offset + 1 ≤ o) ∧ (t = false → o = b.offset)
    ∧ (isRoot = true → t = true) := by
  rw [procTail] at h
  split at h
  · exact absurd h (by simp)
  · next i htr =>
    have hi := tryRules_pos rs hnn b offs i htr
    simp only [Except.ok.injEq, Prod.mk.injEq] at h
    obtain ⟨ho, ht⟩ := h
    exact ⟨fun _ => by omega, fun hf => absurd (ht.trans hf) (by simp), fun _ => ht.symm⟩
  · split at h
    · simp only [Except.ok.injEq, Prod.mk.injEq] at h
      obtain ⟨ho, ht⟩ := h
      exact ⟨fun _ => by omega, fun hf => absurd (ht.trans hf) (by simp), fun _ => ht.symm⟩
    · next hroot =>
      simp only [Except.ok.injEq, Prod.mk.injEq] at h
      obtain ⟨ho, ht⟩ := h
      exact ⟨fun htr2 => absurd (ht.trans htr2) (by simp), fun _ => ho.symm,
        fun hr => absurd hr (by simpa using hroot)⟩

/-- `orTry` keeps a handled first result or defers to the second. -/
theorem orTry_ok (r1 : Except Unit (Int × Bool)) (r2 : Unit → Except Unit (Int × Bool))
    (o : Int) (t : Bool) (h : orTry r1 r2 = .ok (o, t)) :
    (t = true ∧ r1 = .ok (o, true)) ∨ (∃ o1, r1 = .ok (o1, false) ∧ r2 () = .ok (o, t)) := by
  cases r1 with
  | error u => simp [orTry] at h
  | ok p =>
    obtain ⟨o1, t1⟩ := p
    cases t1 with
    | true =>
      rw [orTry] at h
      simp only [Except.ok.injEq, Prod.mk.injEq] at h
      obtain ⟨ho, ht⟩ := h
      rw [← ho]
      exact Or.inl ⟨ht.symm, rfl⟩
    | false =>
      rw [orTry] at h
      exact Or.inr ⟨o1, rfl, h⟩

/-- The advance property, by strong induction on the bucket size: any
handled `process` result moved the cursor forward by at least one, an
unhandled result left it unchanged, and the top-level bucket always
handles. -/
theorem proc_advance : ∀ (n : Nat) (bk : Bucket), sizeOf bk ≤ n → BucketNN bk →
    (∀ (isRoot : Bool) (b : Buf) (offs o : Int) (t : Bool),
        procBase bk isRoot b offs = .ok (o, t) →
          (t = true → b.offset + 1 ≤ o) ∧ (t = false → o = b.offset)
          ∧ (isRoot = true → t = true))
    ∧ (∀ (b : Buf) (offs o : Int) (t : Bool),
        dispatch bk b offs = .ok (o, t) →
          (t = true → b.offset + 1 ≤ o) ∧ (t = false → o = b.offset))
    ∧ (∀ (b : Buf) (offs : Int) (kids : List Nat) (o : Int) (t : Bool),
        anyLoop bk b offs kids = .ok (o, t) →
          (t = true → b.offset + 1 ≤ o) ∧ (t = false → o = b.offset)) := by
  intro n
  induction n with
  | zero =>
    intro bk hsz
    cases bk with
    | node ia m rs => simp [Bucket.node.sizeOf_spec] at hsz
  | succ n ihn =>
    intro bk hsz hnn
    cases bk with
    | node ia m rs =>
    cases hnn with
    | node _ _ _ hrs hm =>
    have hchildNN : ∀ (s : String) (child : Bucket), lookupB m s = some child →
        BucketNN child := by
      intro s child hl
      obtain ⟨k, hkm⟩ := lookupB_mem m s child hl
      exact hm (k, child) hkm
    have hchildSz : ∀ (s : String) (child : Bucket), lookupB m s = some child →
        sizeOf child ≤ n := by
      intro s child hl
      have := lookupB_sizeOf m s child hl
      simp only [Bucket.node.sizeOf_spec] at hsz
      omega
    have hbase : ∀ (isRoot : Bool) (b : Buf) (offs o : Int) (t : Bool),
        procBase (.node ia m rs) isRoot b offs = .ok (o, t) →
          (t = true → b.offset + 1 ≤ o) ∧ (t = false → o = b.offset)
          ∧ (isRoot = true → t = true) := by
      intro isRoot b offs o t h
      rw [procBase] at h
      split at h
      · split at h
        · exact absurd h (by simp)
        · next e hidx =>
          rcases orTry_ok _ _ _ _ h with ⟨ht, hA⟩ | ⟨o1, _, hrest⟩
          · subst ht
            split at hA
            · simp at hA
            · next child hl =>
              have hd := (ihn child (hchildSz _ _ hl) (hchildNN _ _ hl)).2.1
              have hstep := (hd b (offs + 1) o true hA).1 rfl
              exact ⟨fun _ => hstep, fun hf => absurd hf (by simp), fun _ => rfl⟩
          · rcases orTry_ok _ _ _ _ hrest with ⟨ht, hB⟩ | ⟨o2, _, htail⟩
            · subst ht
              split at hB
              · simp at hB
              · next child hl =>
                have hd := (ihn child (hchildSz _ _ hl) (hchildNN _ _ hl)).2.1
                have hstep := (hd b (offs + 1) o true hB).1 rfl
                exact ⟨fun _ => hstep, fun hf => absurd hf (by simp), fun _ => rfl⟩
            · exact procTail_ok rs hrs isRoot b offs o t htail
      · exact procTail_ok rs hrs isRoot b offs o t h
    have hany : ∀ (kids : List Nat) (b : Buf) (offs o : Int) (t : Bool),
        anyLoop (.node ia m rs) b offs kids = .ok (o, t) →
          (t = true → b.offset + 1 ≤ o) ∧ (t = false → o = b.offset) := by
      intro kids
      induction kids with
      | nil =>
        intro b offs o t h
        rw [anyLoop] at h
        simp only [Except.ok.injEq, Prod.mk.injEq] at h
        obtain ⟨ho, ht⟩ := h
        exact ⟨fun htr => absurd (ht.trans htr) (by simp), fun _ => ho.symm⟩
      | cons k rest ih =>
        intro b offs o t h
        rw [anyLoop] at h
        split at h
        · exact absurd h (by simp)
        · next offs2 hsk =>
          split at h
          · exact absurd h (by simp)
          · next o3 hpb =>
            simp only [Except.ok.injEq, Prod.mk.injEq] at h
            obtain ⟨ho, ht⟩ := h
            have hstep := (hbase false b offs2 o3 true hpb).1 rfl
            rw [← ho]
            exact ⟨fun _ => hstep, fun hf => absurd (ht.trans hf) (by simp)⟩
          · next o3 hpb => exact ih b (offs2 + 1) o t h
    refine ⟨hbase, ?_, fun b offs kids o t h => hany kids b offs o t h⟩
    intro b offs o t h
    cases ia with
    | false =>
      rw [dispatch] at h
      have := hbase false b offs o t h
      exact ⟨this.1, this.2.1⟩
    | true =>
      rw [dispatch] at h
      split at h
      · exact absurd h (by simp)
      · split at h
        · exact absurd h (by simp)
        · next kids hch => exact hany kids b (offs - 2) o t h

/-- `size - offset` fuel always completes the transpile loop. -/
theorem transpileFuel_total (bk : Bucket) (hnn : BucketNN bk) :
    ∀ (fuel : Nat) (b : Buf), (b.size - b.offset).toNat ≤ fuel →
      transpileFuel bk fuel b ≠ none := by
  intro fuel
  induction fuel with
  | zero =>
    intro b hf
    rw [transpileFuel]
    rw [if_neg (by omega)]
    simp
  | succ fuel ih =>
    intro b hf
    rw [transpileFuel]
    by_cases hlt : b.offset < b.size
    · rw [if_pos hlt]
      cases hp : procBase bk true b 0 with
      | error u => simp
      | ok p =>
        obtain ⟨o, t⟩ := p
        have hadv := (proc_advance (sizeOf bk) bk le_rfl hnn).1 true b 0 o t hp
        have ht : t = true := hadv.2.2 rfl
        have ho : b.offset + 1 ≤ o := hadv.1 ht
        apply ih
        have h1 : (b.withOffset o).size = b.size := by cases b; rfl
        have h2 : (b.withOffset o).offset = o := by cases b; rfl
        rw [h1, h2]
        omega
    · rw [if_neg hlt]; simp

/-- C1: under the precondition that every registered rule's `apply`
returns a non-negative count, each top-level `process` call either
raises or strictly increases `buffer.offset` by at least one; and the
`transpile` loop completes within `size - offset` steps for every
finite entry list (so it terminates). -/
theorem c1_process_advances_transpile_terminates (bk : Bucket) (b : Buf)
    (hnn : BucketNN bk) :
    (∀ o t, procBase bk true b 0 = .ok (o, t) → b.offset + 1 ≤ o)
    ∧ (∀ fuel, (b.size - b.offset).toNat ≤ fuel → transpileFuel bk fuel b ≠ none) := by
  refine ⟨?_, fun fuel hf => transpileFuel_total bk hnn fuel b hf⟩
  intro o t h
  have hadv := (proc_advance (sizeOf bk) bk le_rfl hnn).1 true b 0 o t h
  exact hadv.1 (hadv.2.2 rfl)

/-- C1 witness: a manager holding one pathless rule that always
consumes one entry, over a two-entry buffer — two steps of fuel finish
the transpile loop. -/
theorem c1_process_advances_witness :
    transpileFuel (.node false [] [⟨fun _ _ => .ok 1⟩]) 2
      (.mk [⟨1, "Code", some []⟩, ⟨2, "Code", some []⟩] 2 0 0 none) ≠ none :=
  (c1_process_advances_transpile_terminates
    (.node false [] [⟨fun _ _ => .ok 1⟩])
    (.mk [⟨1, "Code", some []⟩, ⟨2, "Code", some []⟩] 2 0 0 none)
    (BucketNN.node false [] [⟨fun _ _ => .ok 1⟩]
      (fun r hr b o i h => by
        rw [List.mem_singleton.mp hr] at h
        simp only [Except.ok.injEq] at h
        omega)
      (fun kv hkv => absurd hkv (by simp)))).2 2 (by decide)

/-- C7: counterexample to the claim as stated.  On the source `//`
(at offset 0) the maximal operator run is `//` — it begins with `//` —
yet `_next_op` returns the run itself, not `##`, because the run
reaches the end of the source and the coalescing branch (which sits in
the loop's early-exit arm) is never executed. -/
theorem c7_next_op_counterexample :
    (['/', '/'].takeWhile isOpChar = ['/', '/'])
    ∧ next_op (['/', '/']) 0 = ['/', '/']
    ∧ next_op (['/', '/']) 0 ≠ ['#', '#'] := by
  refine ⟨by decide, by decide, by decide⟩

end JSConvert
